import Mathlib

/-!
Shallow embedding of `lib/index.js` of the metalsmith-link-checker plugin.

The embedding covers the parts of the program the verified claims are about:

* the lexical validators `validMailto`, `validSms`, `validTel` (the JavaScript
  regular expressions are translated into executable matchers over `List Char`);
* the network validator `validUrl` together with its retry/backoff logic and
  the module-level cache `validUrlCache`; the network is an oracle mapping the
  `(attempt, method)` state of a probe to a response, and a run records a trace
  of issued requests and scheduled delays (within one validation each
  `(attempt, method)` state is visited at most once, so an oracle indexed by
  that state loses no generality);
* the local resolver `validLocal` with Node's POSIX `path.dirname`,
  `path.join` and `path.normalize` semantics, and the JavaScript `in` operator
  (which also finds `Object.prototype` properties on a plain object literal);
* the completion callback of the plugin (grouping of broken occurrences,
  report building, and the sequence of `done(...)` invocations).

Recursion in `validUrl` is implemented with explicit fuel so that the kernel
can evaluate concrete runs; the fuel argument strictly dominates the measure
`muV` (2·(attempts + 2 − attempt) + method bit), which strictly decreases on
every re-entrant call of the JavaScript original, so with the fuel supplied by
`validUrl` the out-of-fuel branch is unreachable (the lemmas below carry the
bound `muV cfg attempt method < fuel`).
-/

namespace LinkChecker

/-! ## Small string utilities -/

/-- Split a list at the first occurrence of `c`: `some (before, after)` with the
occurrence removed, or `none` when `c` does not occur. -/
def splitAtFirst (c : Char) : List Char → Option (List Char × List Char)
  | [] => none
  | x :: xs =>
    if x = c then some ([], xs)
    else
      match splitAtFirst c xs with
      | none => none
      | some (before, after) => some (x :: before, after)

/-- Line terminators of JavaScript regular expressions: `.` (without the `s`
flag) matches any character except these. -/
def isLineTerm (c : Char) : Bool :=
  c == '\n' || c == '\r' || c == Char.ofNat 0x2028 || c == Char.ofNat 0x2029

/-- Model of `str.replace(/X.*$/, "")` for a single character `X` (used with
`#` and `?` in `validLocal`): the regex matches at the first position holding
`X` that is followed by no line terminator, and the replacement deletes the
rest of the string from there. -/
def stripTailFrom (c : Char) : List Char → List Char
  | [] => []
  | x :: xs =>
    if x = c ∧ xs.all (fun y => !isLineTerm y) then []
    else x :: stripTailFrom c xs

/-! ## validMailto (lib/index.js lines 209-225) -/

/-- Matcher for `/^mailto:[^@]+/`: the prefix `mailto:` followed by at least
one character other than `@`. -/
def mailtoLocalPartRe (l : List Char) : Bool :=
  "mailto:".data.isPrefixOf l &&
    match l.drop 7 with
    | x :: _ => x != '@'
    | [] => false

/-- Matcher for `/^mailto:[^@]+@[^?]+/`: since `[^@]+` cannot cross an `@`,
the regex `@` necessarily matches the first `@` after the prefix, and `[^?]+`
only requires one character other than `?` right after it. -/
def mailtoDomainRe (l : List Char) : Bool :=
  "mailto:".data.isPrefixOf l &&
    match splitAtFirst '@' (l.drop 7) with
    | some (localPart, rest) =>
      !localPart.isEmpty &&
        match rest with
        | x :: _ => x != '?'
        | [] => false
    | none => false

/-- The query keys accepted by `validMailto`, in the order of the regex
alternation `(subject|cc|bcc|body)`. -/
def mailtoQueryKeys : List String := ["subject", "cc", "bcc", "body"]

/-- Matcher for `(subject|cc|bcc|body)=[^&]+` against the whole of `p`
(no key of the alternation is a prefix of another, so testing each key with
an exact `key=` prefix is equivalent to the regex). -/
def mailtoQueryPairRe (p : List Char) : Bool :=
  mailtoQueryKeys.any fun k =>
    (k.data ++ ['=']).isPrefixOf p &&
    !(p.drop (k.data.length + 1)).isEmpty &&
    !(p.drop (k.data.length + 1)).contains '&'

/-- Matcher for `(K=[^&]+)(&K=[^&]+)?` (with `K` the key alternation) against
the whole of `q`: as `[^&]+` cannot cross an `&`, the optional second pair
must consume exactly the part after the first `&`, if any. -/
def mailtoQueryRe (q : List Char) : Bool :=
  match splitAtFirst '&' q with
  | none => mailtoQueryPairRe q
  | some (p1, p2) => mailtoQueryPairRe p1 && mailtoQueryPairRe p2

/-- Matcher for the full anchored regex
`/^mailto:[^@]+@[^?]+(\?(subject|cc|bcc|body)=[^&]+(&(subject|cc|bcc|body)=[^&]+)?)?$/`:
the local part runs to the first `@`, the domain runs to the first `?` (or to
the end when there is no `?`), and the query, when present, is matched by
`mailtoQueryRe`. -/
def mailtoFullRe (l : List Char) : Bool :=
  "mailto:".data.isPrefixOf l &&
    match splitAtFirst '@' (l.drop 7) with
    | none => false
    | some (localPart, rest) =>
      !localPart.isEmpty &&
        match splitAtFirst '?' rest with
        | none => !rest.isEmpty
        | some (dom, q) => !dom.isEmpty && mailtoQueryRe q

/-- Translation of `validMailto` (three regex tests, first failure wins). -/
def validMailto (link : String) : Option String :=
  if !mailtoLocalPartRe link.data then some "invalid local-part"
  else if !mailtoDomainRe link.data then some "invalid domain"
  else if !mailtoFullRe link.data then some "invalid query params"
  else none

/-! ## validSms and validTel (lib/index.js lines 231-255) -/

/-- The character class `[0-9.+-]` of the sms/tel regexes. -/
def phoneChar (c : Char) : Bool :=
  c.isDigit || c == '.' || c == '+' || c == '-'

/-- Model of `link.replace(/ /g, "")`. -/
def stripSpaces (l : List Char) : List Char :=
  l.filter (fun c => c != ' ')

/-- Matcher for `/^<scheme>([0-9.+-]+)?$/` (anchored at both ends): the scheme
text followed by zero or more characters of `[0-9.+-]`. -/
def phoneSchemeRe (scheme : String) (l : List Char) : Bool :=
  scheme.data.isPrefixOf l && (l.drop scheme.data.length).all phoneChar

/-- Translation of `validSms`. -/
def validSms (link : String) : Option String :=
  if !phoneSchemeRe "sms:" (stripSpaces link.data) then some "invalid"
  else if link.data.contains ' ' then some "contains a space"
  else none

/-- Translation of `validTel`. -/
def validTel (link : String) : Option String :=
  if !phoneSchemeRe "tel:" (stripSpaces link.data) then some "invalid"
  else if link.data.contains ' ' then some "contains a space"
  else none

/-! ## validUrl (lib/index.js lines 135-203) -/

/-- The HTTP method of a probe. -/
inductive Method
  | head
  | get
deriving DecidableEq

/-- Outcome of one network request: an HTTP response with a status code, or a
transport-level error carrying `err.message` (a request timeout destroys the
request and surfaces through this same error path). The JavaScript response
handler's `!res` test is unreachable (Node always passes a response object to
the handler), so it is not a separate case here. -/
inductive NetResponse
  | status (code : Nat)
  | transportError (msg : String)
deriving DecidableEq

/-- The network as an oracle from the `(attempt, method)` state of a probe to
its response. Within one validation run no `(attempt, method)` state repeats,
so this indexing is as general as one response per issued request. -/
abbrev Oracle := Nat → Method → NetResponse

/-- Observable events of one validation run: requests that were issued and
retry delays that were scheduled (`setTimeout` durations in ms). -/
inductive Event
  | request (method : Method) (attempt : Nat)
  | delay (ms : Nat)
deriving DecidableEq

/-- The module-level `validUrlCache` object: URL → cached validation result
(`none` = valid). Insertion prepends, lookup takes the first hit, which models
overwriting assignment to an object key. -/
abbrev Cache := List (String × Option String)

/-- Model of `link in validUrlCache` / `validUrlCache[link]`. -/
def lookupCache (cache : Cache) (link : String) : Option (Option String) :=
  cache.lookup link

/-- Model of `validUrlCache[link] = result`. -/
def insertCache (cache : Cache) (link : String) (result : Option String) : Cache :=
  (link, result) :: cache

/-- Result of running one validation to completion. -/
structure RunOut where
  result : Option String
  cache : Cache
  trace : List Event
deriving DecidableEq

/-- The plugin options the network validator reads (besides the request
options, which do not influence control flow here). -/
structure Config where
  attempts : Nat
deriving DecidableEq

/-- JavaScript truthiness of a validation result (`null` and the empty string
are falsy). -/
def truthy : Option String → Bool
  | some s => s != ""
  | none => false

/-- Translation of the closure `cacheAndCallback` of `validUrl`: retry when
the result is truthy and the retry limit is not exhausted (scheduling the
retry after `min(1000, 100 * 2 ** attempt)` ms), otherwise store the result
in the cache and deliver it. `retryRun` is the continuation
`validUrl(link, options, callback, attempt + 1, method)`. -/
def cacheAndCallback (cfg : Config) (cache : Cache) (link : String) (attempt : Nat)
    (result : Option String) (retryRun : RunOut) : RunOut :=
  if truthy result ∧ attempt ≤ cfg.attempts then
    ⟨retryRun.result, retryRun.cache,
      Event.delay (min 1000 (100 * 2 ^ attempt)) :: retryRun.trace⟩
  else
    ⟨result, insertCache cache link result, []⟩

/-- Fuel-indexed translation of `validUrl`. The body follows the source: a
cache hit short-circuits; otherwise one request is issued and the response is
dispatched — status 405 while the method is not GET re-enters as GET at the
same attempt; a status in [400, 599] is the failure `"HTTP <code>"`; any other
status is a success; a transport error while the method is not GET re-enters
as GET at the same attempt, and while the method is GET it is the failure
`err.message`. Terminal outcomes go through `cacheAndCallback`. -/
def validUrlGo (net : Oracle) (cfg : Config) (link : String) :
    Nat → Cache → Nat → Method → RunOut
  | 0, cache, _, _ => ⟨some "out of fuel", cache, []⟩
  | fuel + 1, cache, attempt, method =>
    match lookupCache cache link with
    | some r => ⟨r, cache, []⟩
    | none =>
      let o : RunOut :=
        match net attempt method with
        | .status c =>
          if c = 405 ∧ method ≠ .get then
            validUrlGo net cfg link fuel cache attempt .get
          else if 400 ≤ c ∧ c ≤ 599 then
            cacheAndCallback cfg cache link attempt (some ("HTTP " ++ toString c))
              (validUrlGo net cfg link fuel cache (attempt + 1) method)
          else
            cacheAndCallback cfg cache link attempt none
              (validUrlGo net cfg link fuel cache (attempt + 1) method)
        | .transportError msg =>
          if method ≠ .get then
            validUrlGo net cfg link fuel cache attempt .get
          else
            cacheAndCallback cfg cache link attempt (some msg)
              (validUrlGo net cfg link fuel cache (attempt + 1) method)
      ⟨o.result, o.cache, Event.request method attempt :: o.trace⟩

/-- Measure dominated by the fuel: every re-entrant call of the source
strictly decreases it (a HEAD→GET fallback clears the method bit, a retry
moves `attempt` towards `attempts + 1`). -/
def muV (cfg : Config) (attempt : Nat) (method : Method) : Nat :=
  2 * (cfg.attempts + 2 - attempt) + (if method = Method.head then 1 else 0)

/-- One validation of `link`, started the way the source starts it
(`attempt = 1`, `method = "HEAD"` by default; both are explicit parameters so
that mid-run states can be examined). The supplied fuel strictly dominates
`muV` for every reachable state. -/
def validUrl (net : Oracle) (cfg : Config) (cache : Cache) (link : String)
    (attempt : Nat) (method : Method) : RunOut :=
  validUrlGo net cfg link (2 * cfg.attempts + 4) cache attempt method

/-- Two successive runs of the plugin validating the same URL: because
`validUrlCache` is declared at module level (lib/index.js line 135), the
second run starts with the cache the first run left behind. -/
def twoRuns (net1 net2 : Oracle) (cfg : Config) (link : String) : RunOut × RunOut :=
  let o1 := validUrl net1 cfg [] link 1 Method.head
  (o1, validUrl net2 cfg o1.cache link 1 Method.head)

/-- The scheduled retry delays of a trace, in order. -/
def delaysOf (trace : List Event) : List Nat :=
  trace.filterMap fun e =>
    match e with
    | .delay d => some d
    | .request _ _ => none

/-- Checker for the claim "every retry starts with the method reset to HEAD":
every request event immediately following a delay event uses HEAD. -/
def retriesResetToHeadB : List Event → Bool
  | .delay _ :: .request m a :: rest =>
    decide (m = Method.head) && retriesResetToHeadB (.request m a :: rest)
  | _ :: rest => retriesResetToHeadB rest
  | [] => true

/-- Checker for the amended claim: whenever a request is followed by a delay
and a further request, the later request keeps the method of the failing one,
increments the attempt by one, and the delay is `min(1000, 100 * 2 ** a)` for
the failing attempt `a`. -/
def retryStepOkB (cfg : Config) : List Event → Bool
  | .request m a :: .delay d :: .request m' a' :: rest =>
    decide (m' = m ∧ a' = a + 1 ∧ d = min 1000 (100 * 2 ^ a)) &&
      retryStepOkB cfg (.request m' a' :: rest)
  | _ :: rest => retryStepOkB cfg rest
  | [] => true

/-- Event predicate: a request event carries an attempt number of at least
`a` (delays are ignored). -/
def reqAtLeast (a : Nat) : Event → Bool
  | .request _ a' => decide (a ≤ a')
  | .delay _ => true

/-- Number of requests a trace issues at attempt count `a`. -/
def countReqAt (a : Nat) (trace : List Event) : Nat :=
  (trace.filter fun e =>
    match e with
    | .request _ a' => a' == a
    | .delay _ => false).length

/-- A response that the validator treats as a terminal failure with a truthy
diagnostic: an HTTP status in [400, 599], or a transport error whose message
is non-empty. -/
def isHardFailure : NetResponse → Bool
  | .status c => decide (400 ≤ c ∧ c ≤ 599)
  | .transportError msg => msg != ""

/-! ## Report aggregation and the completion callback (lib/index.js 414-448) -/

/-- A `filenameAndLinkWithResult` record of the source. -/
structure Occurrence where
  filename : String
  link : String
  result : Option String
deriving DecidableEq

/-- The filter `filenameAndLink.result` (JavaScript truthiness). -/
def isBroken (o : Occurrence) : Bool := truthy o.result

/-- The template string `` `${link} (${result})` ``. -/
def linkError (o : Occurrence) : String :=
  o.link ++ " (" ++ o.result.getD "" ++ ")"

/-- One step of the `reduce` that builds `filenamesToLinkErrors`: push `v`
onto the entry of `k`, creating the entry when absent. The association list
keeps first-insertion key order and per-key insertion order of values, as a
JavaScript object does for its own string keys and arrays do for pushes. -/
def upsert (m : List (String × List String)) (k : String) (v : String) :
    List (String × List String) :=
  if m.any (fun e => e.1 == k) then
    m.map (fun e => if e.1 == k then (e.1, e.2 ++ [v]) else e)
  else
    m ++ [(k, [v])]

/-- Grouping of the broken occurrences by filename (the source's
`filenamesToLinkErrors` object). -/
def filenamesToLinkErrors (results : List Occurrence) : List (String × List String) :=
  (results.filter isBroken).foldl (fun m o => upsert m o.filename (linkError o)) []

/-- UTF-16 code units of a character (JavaScript strings are UTF-16, and the
default `Array.prototype.sort` comparator compares code-unit sequences). -/
def utf16Units (c : Char) : List Nat :=
  if c.toNat < 0x10000 then [c.toNat]
  else [0xD800 + (c.toNat - 0x10000) / 0x400, 0xDC00 + (c.toNat - 0x10000) % 0x400]

/-- UTF-16 code-unit sequence of a string. -/
def utf16 (s : String) : List Nat :=
  s.data.foldr (fun c acc => utf16Units c ++ acc) []

/-- Lexicographic order on code-unit sequences. -/
def leUnits : List Nat → List Nat → Bool
  | [], _ => true
  | _ :: _, [] => false
  | a :: as, b :: bs => if a < b then true else if b < a then false else leUnits as bs

/-- The order `Array.prototype.sort()` sorts strings by. -/
def jsR (a b : String) : Prop := leUnits (utf16 a) (utf16 b) = true

instance : DecidableRel jsR := fun a b => by unfold jsR; infer_instance

/-- Model of `.sort()` on an array of strings: a stable sort by `jsR`
(distinct strings are strictly ordered by `jsR`, so any correct sort —
JavaScript's and this one — produces the same list). -/
def jsSort (l : List String) : List String := List.insertionSort jsR l

/-- The `message` the completion callback builds from the grouping: blocks of
`"<filename>:\n  <link> (<reason>)..."` for the sorted filenames, each block
listing its sorted `link (reason)` lines, blocks joined by a blank line. -/
def buildMessage (m : List (String × List String)) : String :=
  String.intercalate "\n\n"
    ((jsSort (m.map Prod.fst)).map fun filename =>
      filename ++ ":\n" ++
        String.intercalate "\n"
          ((jsSort ((m.lookup filename).getD [])).map fun e => "  " ++ e))

/-- The aggregated failure of a run: `none` when no occurrence is broken,
otherwise the report text. -/
def buildReport (results : List Occurrence) : Option String :=
  let m := filenamesToLinkErrors results
  if m.isEmpty then none
  else some ("Broken links found:\n\n" ++ buildMessage m)

/-- The sequence of `done(...)` invocations the completion callback performs,
in order (`some x` = called with the value `x`, `none` = called with no
argument). Translation of lib/index.js lines 414-448: an async error is
reported and the callback returns; otherwise, when broken links exist,
`done(report)` is called and — the `done(...)` call not being followed by a
`return` — execution falls through to the final `done()` as well. -/
def completionCalls (err : Option String) (results : List Occurrence) :
    List (Option String) :=
  match err with
  | some e => [some e]
  | none =>
    match buildReport results with
    | some report => [some report, none]
    | none => [none]

/-! ## validLocal (lib/index.js lines 264-296) and Node's posix paths -/

/-- Split on `/` (keeping empty segments), as Node's path normalization
does. -/
def splitSep : List Char → List (List Char)
  | [] => [[]]
  | c :: rest =>
    let r := splitSep rest
    if c = '/' then [] :: r
    else
      match r with
      | s :: ss => (c :: s) :: ss
      | [] => [[c]]

/-- One step of Node's `normalizeString`: skip empty and `.` segments; on
`..` pop a previous segment, keep stacking `..` above the root of a relative
path (`allowAbove`), and drop it at the root of an absolute path. The stack
holds the segments in reverse order. -/
def normStep (allowAbove : Bool) (stack : List (List Char)) (seg : List Char) :
    List (List Char) :=
  if seg = [] ∨ seg = ['.'] then stack
  else if seg = ['.', '.'] then
    match stack with
    | top :: rest => if top = ['.', '.'] then seg :: stack else rest
    | [] => if allowAbove then [seg] else []
  else seg :: stack

/-- Joining segments with `/`. -/
def joinSegs : List (List Char) → List Char
  | [] => []
  | [s] => s
  | s :: rest => s ++ '/' :: joinSegs rest

/-- Node's `path.posix.normalize`: resolve `.` and `..`, collapse separators,
keep one trailing separator, return `.` (or `./` with a trailing separator)
for an empty relative result and `/` for an empty absolute one. -/
def posixNormalize (p : List Char) : List Char :=
  if p = [] then ['.']
  else
    let isAbs := decide (p.head? = some '/')
    let trailing := decide (p.getLast? = some '/')
    let core := joinSegs (((splitSep p).foldl (normStep !isAbs) []).reverse)
    if core = [] then
      if isAbs then ['/'] else if trailing then ['.', '/'] else ['.']
    else
      (if isAbs then '/' :: core else core) ++ (if trailing then ['/'] else [])

/-- Node's `path.posix.join` for two parts: concatenate the non-empty parts
with `/` and normalize; all-empty input gives `.`. -/
def posixJoin (a b : List Char) : List Char :=
  let joined := if a = [] then b else if b = [] then a else a ++ '/' :: b
  if joined = [] then ['.'] else posixNormalize joined

/-- Index of the last occurrence of `c`, if any. -/
def lastIdxOf (c : Char) (l : List Char) : Option Nat :=
  match l.reverse.findIdx? (fun x => x == c) with
  | none => none
  | some k => some (l.length - 1 - k)

/-- Remove the maximal run of `/` at the end. -/
def dropTrailingSlashes (l : List Char) : List Char :=
  (l.reverse.dropWhile (fun c => c == '/')).reverse

/-- Node's `path.posix.dirname`: ignore trailing separators, cut at the last
separator before the last non-separator character (a separator at index 0
counts as the root, not as a cut point), with Node's special cases for a
rootless result and a `//` prefix. -/
def posixDirname (p : List Char) : List Char :=
  if p = [] then ['.']
  else
    let hasRoot := decide (p.head? = some '/')
    let t := dropTrailingSlashes p
    match lastIdxOf '/' t with
    | none => if hasRoot then ['/'] else ['.']
    | some j =>
      if j = 0 then (if hasRoot then ['/'] else ['.'])
      else if hasRoot ∧ j = 1 then ['/', '/']
      else t.take j

/-- The own property names of `Object.prototype`: the JavaScript `in`
operator walks the prototype chain of a plain object literal, so these names
test as present in any `{}`-built object. -/
def objectPrototypeProps : List String :=
  ["constructor", "hasOwnProperty", "isPrototypeOf", "propertyIsEnumerable",
   "toLocaleString", "toString", "valueOf",
   "__defineGetter__", "__defineSetter__", "__lookupGetter__", "__lookupSetter__",
   "__proto__"]

/-- Model of `key in files` for the object-literal `files` map with own keys
`ownKeys`. -/
def jsIn (key : String) (ownKeys : List String) : Bool :=
  ownKeys.contains key || objectPrototypeProps.contains key

/-- Translation of `validLocal`: strip a `#fragment`, then a `?query`; empty,
`.` and `./` are self-references (checked before and after resolution); a
leading `/` makes the link root-relative with the slash stripped, anything
else resolves against `path.dirname(src)`; finally the resolved path, or
`<resolved>/index.html`, must be `in` the files object. -/
def validLocal (files : List String) (src dest : String) : Bool :=
  let d1 := stripTailFrom '#' dest.data
  let d2 := stripTailFrom '?' d1
  if d2 = [] ∨ d2 = ['.'] ∨ d2 = ['.', '/'] then true
  else
    let linkPath :=
      if d2.head? = some '/' then d2.drop 1
      else posixJoin (posixDirname src.data) d2
    if linkPath = [] ∨ linkPath = ['.'] ∨ linkPath = ['.', '/'] then true
    else if jsIn (String.mk linkPath) files then true
    else if jsIn (String.mk (posixJoin linkPath "index.html".data)) files then true
    else false

/-! ## Order facts for the sort model -/

theorem leUnits_total : ∀ x y : List Nat, leUnits x y = true ∨ leUnits y x = true := by
  intro x
  induction x with
  | nil => intro y; left; rfl
  | cons a as ih =>
    intro y
    cases y with
    | nil => right; rfl
    | cons b bs =>
      simp only [leUnits]
      rcases Nat.lt_trichotomy a b with h | h | h
      · left; simp [h, Nat.not_lt_of_lt h]
      · subst h; simpa [Nat.lt_irrefl] using ih bs
      · right; simp [h, Nat.not_lt_of_lt h]

theorem leUnits_trans : ∀ x y z : List Nat,
    leUnits x y = true → leUnits y z = true → leUnits x z = true := by
  intro x
  induction x with
  | nil => intro y z _ _; rfl
  | cons a as ih =>
    intro y z hxy hyz
    cases y with
    | nil => simp [leUnits] at hxy
    | cons b bs =>
      cases z with
      | nil => simp [leUnits] at hyz
      | cons c cs =>
        simp only [leUnits] at hxy hyz ⊢
        rcases Nat.lt_trichotomy a b with hab | hab | hab
        · rcases Nat.lt_trichotomy b c with hbc | hbc | hbc
          · simp [Nat.lt_trans hab hbc]
          · subst hbc; simp [hab]
          · exfalso; simp [Nat.not_lt_of_lt hbc, hbc] at hyz
        · subst hab
          rcases Nat.lt_trichotomy a c with hac | hac | hac
          · simp [hac]
          · subst hac
            simp only [Nat.lt_irrefl, if_false] at hxy hyz ⊢
            exact ih bs cs hxy hyz
          · exfalso; simp [Nat.not_lt_of_lt hac, hac] at hyz
        · exfalso; simp [Nat.not_lt_of_lt hab, hab] at hxy

instance : IsTotal String jsR := ⟨fun a b => leUnits_total (utf16 a) (utf16 b)⟩

instance : IsTrans String jsR :=
  ⟨fun a b c hab hbc => leUnits_trans (utf16 a) (utf16 b) (utf16 c) hab hbc⟩

theorem jsSort_sorted (l : List String) : (jsSort l).Sorted jsR :=
  List.sorted_insertionSort jsR l

theorem jsSort_perm (l : List String) : (jsSort l).Perm l :=
  List.perm_insertionSort jsR l

/-! ## General lemmas about the network validator -/

theorem lookupCache_insert (cache : Cache) (link : String) (r : Option String) :
    lookupCache (insertCache cache link r) link = some r := by
  simp [lookupCache, insertCache, List.lookup]

theorem muV_get_lt (cfg : Config) (attempt : Nat) (method : Method)
    (h : method ≠ Method.get) : muV cfg attempt Method.get < muV cfg attempt method := by
  cases method with
  | head => simp [muV]
  | get => exact absurd rfl h

theorem muV_succ_lt (cfg : Config) (attempt : Nat) (method : Method)
    (h : attempt ≤ cfg.attempts) :
    muV cfg (attempt + 1) method < muV cfg attempt method := by
  cases method <;> simp [muV] <;> omega

theorem muV_lt_default (cfg : Config) (attempt : Nat) (method : Method)
    (h : 1 ≤ attempt) : muV cfg attempt method < 2 * cfg.attempts + 4 := by
  cases method <;> simp [muV] <;> omega

theorem validUrlGo_hit (net : Oracle) (cfg : Config) (link : String) (fuel : Nat)
    (cache : Cache) (attempt : Nat) (method : Method) (r : Option String)
    (hc : lookupCache cache link = some r) :
    validUrlGo net cfg link (fuel + 1) cache attempt method = ⟨r, cache, []⟩ := by
  simp [validUrlGo, hc]

theorem validUrlGo_miss_shape (net : Oracle) (cfg : Config) (link : String) (fuel : Nat)
    (cache : Cache) (attempt : Nat) (method : Method)
    (hc : lookupCache cache link = none) :
    ∃ o : RunOut, validUrlGo net cfg link (fuel + 1) cache attempt method =
      ⟨o.result, o.cache, Event.request method attempt :: o.trace⟩ := by
  simp only [validUrlGo, hc]
  exact ⟨_, rfl⟩

theorem cacheAndCallback_cache (cfg : Config) (cache : Cache) (link : String)
    (attempt : Nat) (res : Option String) (child : RunOut)
    (hchild : attempt ≤ cfg.attempts →
      child.cache = insertCache cache link child.result) :
    (cacheAndCallback cfg cache link attempt res child).cache =
      insertCache cache link (cacheAndCallback cfg cache link attempt res child).result := by
  unfold cacheAndCallback
  split_ifs with hcond
  · exact hchild hcond.2
  · rfl

theorem validUrlGo_caches (net : Oracle) (cfg : Config) (link : String) :
    ∀ fuel cache attempt method, muV cfg attempt method < fuel →
      lookupCache cache link = none →
      (validUrlGo net cfg link fuel cache attempt method).cache =
        insertCache cache link (validUrlGo net cfg link fuel cache attempt method).result := by
  intro fuel
  induction fuel with
  | zero => intro cache attempt method h _; exact absurd h (Nat.not_lt_zero _)
  | succ f ih =>
    intro cache attempt method h hc
    have hf : muV cfg attempt method ≤ f := Nat.lt_succ_iff.mp h
    cases hnet : net attempt method with
    | status c =>
      simp only [validUrlGo, hc, hnet]
      by_cases h405 : c = 405 ∧ method ≠ Method.get
      · rw [if_pos h405]
        exact ih cache attempt Method.get
          (Nat.lt_of_lt_of_le (muV_get_lt cfg attempt method h405.2) hf) hc
      · rw [if_neg h405]
        by_cases hfail : 400 ≤ c ∧ c ≤ 599
        · rw [if_pos hfail]
          exact cacheAndCallback_cache cfg cache link attempt _ _ fun hle =>
            ih cache (attempt + 1) method
              (Nat.lt_of_lt_of_le (muV_succ_lt cfg attempt method hle) hf) hc
        · rw [if_neg hfail]
          exact cacheAndCallback_cache cfg cache link attempt _ _ fun hle =>
            ih cache (attempt + 1) method
              (Nat.lt_of_lt_of_le (muV_succ_lt cfg attempt method hle) hf) hc
    | transportError msg =>
      simp only [validUrlGo, hc, hnet]
      by_cases hm : method ≠ Method.get
      · rw [if_pos hm]
        exact ih cache attempt Method.get
          (Nat.lt_of_lt_of_le (muV_get_lt cfg attempt method hm) hf) hc
      · rw [if_neg hm]
        exact cacheAndCallback_cache cfg cache link attempt _ _ fun hle =>
          ih cache (attempt + 1) method
            (Nat.lt_of_lt_of_le (muV_succ_lt cfg attempt method hle) hf) hc

theorem cacheAndCallback_congr (cfg : Config) (cache : Cache) (link : String)
    (attempt : Nat) (res : Option String) (c1 c2 : RunOut)
    (hch : attempt ≤ cfg.attempts → c1 = c2) :
    cacheAndCallback cfg cache link attempt res c1 =
      cacheAndCallback cfg cache link attempt res c2 := by
  unfold cacheAndCallback
  split_ifs with hcond
  · rw [hch hcond.2]
  · rfl

theorem validUrlGo_fuel_congr (net : Oracle) (cfg : Config) (link : String) :
    ∀ f1 f2 cache attempt method, muV cfg attempt method < f1 →
      muV cfg attempt method < f2 →
      validUrlGo net cfg link f1 cache attempt method =
        validUrlGo net cfg link f2 cache attempt method := by
  intro f1
  induction f1 with
  | zero => intro f2 cache attempt method h1 _; exact absurd h1 (Nat.not_lt_zero _)
  | succ f ih =>
    intro f2 cache attempt method h1 h2
    cases f2 with
    | zero => exact absurd h2 (Nat.not_lt_zero _)
    | succ g =>
      have hf : muV cfg attempt method ≤ f := Nat.lt_succ_iff.mp h1
      have hg : muV cfg attempt method ≤ g := Nat.lt_succ_iff.mp h2
      cases hc : lookupCache cache link with
      | some r =>
        rw [validUrlGo_hit net cfg link f cache attempt method r hc,
          validUrlGo_hit net cfg link g cache attempt method r hc]
      | none =>
        cases hnet : net attempt method with
        | status c =>
          simp only [validUrlGo, hc, hnet]
          by_cases h405 : c = 405 ∧ method ≠ Method.get
          · rw [if_pos h405, if_pos h405,
              ih g cache attempt Method.get
                (Nat.lt_of_lt_of_le (muV_get_lt cfg attempt method h405.2) hf)
                (Nat.lt_of_lt_of_le (muV_get_lt cfg attempt method h405.2) hg)]
          · rw [if_neg h405, if_neg h405]
            by_cases hfail : 400 ≤ c ∧ c ≤ 599
            · rw [if_pos hfail, if_pos hfail,
                cacheAndCallback_congr cfg cache link attempt _ _ _ fun hle =>
                  ih g cache (attempt + 1) method
                    (Nat.lt_of_lt_of_le (muV_succ_lt cfg attempt method hle) hf)
                    (Nat.lt_of_lt_of_le (muV_succ_lt cfg attempt method hle) hg)]
            · rw [if_neg hfail, if_neg hfail,
                cacheAndCallback_congr cfg cache link attempt _ _ _ fun hle =>
                  ih g cache (attempt + 1) method
                    (Nat.lt_of_lt_of_le (muV_succ_lt cfg attempt method hle) hf)
                    (Nat.lt_of_lt_of_le (muV_succ_lt cfg attempt method hle) hg)]
        | transportError msg =>
          simp only [validUrlGo, hc, hnet]
          by_cases hm : method ≠ Method.get
          · rw [if_pos hm, if_pos hm,
              ih g cache attempt Method.get
                (Nat.lt_of_lt_of_le (muV_get_lt cfg attempt method hm) hf)
                (Nat.lt_of_lt_of_le (muV_get_lt cfg attempt method hm) hg)]
          · rw [if_neg hm, if_neg hm,
              cacheAndCallback_congr cfg cache link attempt _ _ _ fun hle =>
                ih g cache (attempt + 1) method
                  (Nat.lt_of_lt_of_le (muV_succ_lt cfg attempt method hle) hf)
                  (Nat.lt_of_lt_of_le (muV_succ_lt cfg attempt method hle) hg)]

theorem validUrlGo_trace_shape (net : Oracle) (cfg : Config) (link : String)
    (fuel : Nat) (cache : Cache) (attempt : Nat) (method : Method)
    (h : muV cfg attempt method < fuel) (hc : lookupCache cache link = none) :
    ∃ rest, (validUrlGo net cfg link fuel cache attempt method).trace =
      Event.request method attempt :: rest := by
  cases fuel with
  | zero => exact absurd h (Nat.not_lt_zero _)
  | succ f =>
    obtain ⟨o, ho⟩ := validUrlGo_miss_shape net cfg link f cache attempt method hc
    exact ⟨o.trace, by rw [ho]⟩

theorem all_reqAtLeast_mono (a b : Nat) (h : a ≤ b) (tr : List Event)
    (ht : tr.all (reqAtLeast b) = true) : tr.all (reqAtLeast a) = true := by
  rw [List.all_eq_true] at ht ⊢
  intro e he
  have hb := ht e he
  cases e with
  | request m a' =>
    simp only [reqAtLeast, decide_eq_true_eq] at hb ⊢
    omega
  | delay d => rfl

theorem cacheAndCallback_trace_all (cfg : Config) (cache : Cache) (link : String)
    (attempt : Nat) (res : Option String) (child : RunOut) (p : Event → Bool)
    (hdelay : ∀ d, p (Event.delay d) = true)
    (hchild : attempt ≤ cfg.attempts → child.trace.all p = true) :
    (cacheAndCallback cfg cache link attempt res child).trace.all p = true := by
  unfold cacheAndCallback
  split_ifs with hcond
  · show (List.all (Event.delay _ :: child.trace) p) = true
    rw [List.all_cons, hdelay, Bool.true_and]
    exact hchild hcond.2
  · rfl

theorem validUrlGo_all_ge (net : Oracle) (cfg : Config) (link : String) :
    ∀ fuel cache attempt method, muV cfg attempt method < fuel →
      (validUrlGo net cfg link fuel cache attempt method).trace.all
        (reqAtLeast attempt) = true := by
  intro fuel
  induction fuel with
  | zero => intro cache attempt method h; exact absurd h (Nat.not_lt_zero _)
  | succ f ih =>
    intro cache attempt method h
    have hf : muV cfg attempt method ≤ f := Nat.lt_succ_iff.mp h
    cases hc : lookupCache cache link with
    | some r => rw [validUrlGo_hit net cfg link f cache attempt method r hc]; rfl
    | none =>
      have hstep : ∀ o : RunOut, o.trace.all (reqAtLeast attempt) = true →
          (RunOut.mk o.result o.cache
            (Event.request method attempt :: o.trace)).trace.all
            (reqAtLeast attempt) = true := by
        intro o hO
        show (List.all (Event.request method attempt :: o.trace) (reqAtLeast attempt)) = true
        rw [List.all_cons, hO]
        simp [reqAtLeast]
      cases hnet : net attempt method with
      | status c =>
        simp only [validUrlGo, hc, hnet]
        by_cases h405 : c = 405 ∧ method ≠ Method.get
        · rw [if_pos h405]
          exact hstep _ (ih cache attempt Method.get
            (Nat.lt_of_lt_of_le (muV_get_lt cfg attempt method h405.2) hf))
        · rw [if_neg h405]
          by_cases hfail : 400 ≤ c ∧ c ≤ 599
          · rw [if_pos hfail]
            refine hstep _ (cacheAndCallback_trace_all cfg cache link attempt _ _ _
              (fun d => rfl) fun hle => ?_)
            exact all_reqAtLeast_mono attempt (attempt + 1) (Nat.le_succ _) _
              (ih cache (attempt + 1) method
                (Nat.lt_of_lt_of_le (muV_succ_lt cfg attempt method hle) hf))
          · rw [if_neg hfail]
            refine hstep _ (cacheAndCallback_trace_all cfg cache link attempt _ _ _
              (fun d => rfl) fun hle => ?_)
            exact all_reqAtLeast_mono attempt (attempt + 1) (Nat.le_succ _) _
              (ih cache (attempt + 1) method
                (Nat.lt_of_lt_of_le (muV_succ_lt cfg attempt method hle) hf))
      | transportError msg =>
        simp only [validUrlGo, hc, hnet]
        by_cases hm : method ≠ Method.get
        · rw [if_pos hm]
          exact hstep _ (ih cache attempt Method.get
            (Nat.lt_of_lt_of_le (muV_get_lt cfg attempt method hm) hf))
        · rw [if_neg hm]
          refine hstep _ (cacheAndCallback_trace_all cfg cache link attempt _ _ _
            (fun d => rfl) fun hle => ?_)
          exact all_reqAtLeast_mono attempt (attempt + 1) (Nat.le_succ _) _
            (ih cache (attempt + 1) method
              (Nat.lt_of_lt_of_le (muV_succ_lt cfg attempt method hle) hf))

theorem validUrlGo_get_tail (net : Oracle) (cfg : Config) (link : String)
    (fuel : Nat) (cache : Cache) (attempt : Nat)
    (h : muV cfg attempt Method.get < fuel) (hc : lookupCache cache link = none) :
    ∃ rest, (validUrlGo net cfg link fuel cache attempt Method.get).trace =
      Event.request Method.get attempt :: rest ∧
      rest.all (reqAtLeast (attempt + 1)) = true := by
  cases fuel with
  | zero => exact absurd h (Nat.not_lt_zero _)
  | succ f =>
    have hf : muV cfg attempt Method.get ≤ f := Nat.lt_succ_iff.mp h
    have hget : ¬(Method.get ≠ Method.get) := fun hx => hx rfl
    have hcac : ∀ res,
        (cacheAndCallback cfg cache link attempt res
          (validUrlGo net cfg link f cache (attempt + 1) Method.get)).trace.all
          (reqAtLeast (attempt + 1)) = true := by
      intro res
      refine cacheAndCallback_trace_all cfg cache link attempt _ _ _
        (fun d => rfl) fun hle => ?_
      exact validUrlGo_all_ge net cfg link f cache (attempt + 1) Method.get
        (Nat.lt_of_lt_of_le (muV_succ_lt cfg attempt Method.get hle) hf)
    cases hnet : net attempt Method.get with
    | status c =>
      simp only [validUrlGo, hc, hnet]
      have h405 : ¬(c = 405 ∧ Method.get ≠ Method.get) := fun hx => hget hx.2
      rw [if_neg h405]
      by_cases hfail : 400 ≤ c ∧ c ≤ 599
      · rw [if_pos hfail]
        exact ⟨_, rfl, hcac _⟩
      · rw [if_neg hfail]
        exact ⟨_, rfl, hcac _⟩
    | transportError msg =>
      simp only [validUrlGo, hc, hnet]
      rw [if_neg hget]
      exact ⟨_, rfl, hcac _⟩

theorem countReqAt_zero (a : Nat) (tr : List Event)
    (h : tr.all (reqAtLeast (a + 1)) = true) : countReqAt a tr = 0 := by
  induction tr with
  | nil => rfl
  | cons e rest ih =>
    rw [List.all_cons, Bool.and_eq_true] at h
    have hrest := ih h.2
    cases e with
    | request m a' =>
      have ha' : ¬((a' == a) = true) := by
        have := h.1
        simp only [reqAtLeast, decide_eq_true_eq] at this
        simp only [beq_iff_eq]
        omega
      simpa [countReqAt, List.filter, ha'] using hrest
    | delay d =>
      simpa [countReqAt, List.filter] using hrest

theorem retryStepOkB_single (cfg : Config) (e : Event) :
    retryStepOkB cfg [e] = true := by
  cases e <;> rfl

theorem retryStepOkB_req_req (cfg : Config) (m : Method) (a : Nat) (m' : Method)
    (a' : Nat) (l : List Event) :
    retryStepOkB cfg (Event.request m a :: Event.request m' a' :: l) =
      retryStepOkB cfg (Event.request m' a' :: l) := rfl

theorem retryStepOkB_req_delay_req (cfg : Config) (m : Method) (a d : Nat)
    (m' : Method) (a' : Nat) (l : List Event) :
    retryStepOkB cfg (Event.request m a :: Event.delay d :: Event.request m' a' :: l) =
      (decide (m' = m ∧ a' = a + 1 ∧ d = min 1000 (100 * 2 ^ a)) &&
        retryStepOkB cfg (Event.request m' a' :: l)) := rfl

theorem validUrlGo_retry_steps (net : Oracle) (cfg : Config) (link : String) :
    ∀ fuel cache attempt method, muV cfg attempt method < fuel →
      retryStepOkB cfg (validUrlGo net cfg link fuel cache attempt method).trace = true := by
  intro fuel
  induction fuel with
  | zero => intro cache attempt method h; exact absurd h (Nat.not_lt_zero _)
  | succ f ih =>
    intro cache attempt method h
    have hf : muV cfg attempt method ≤ f := Nat.lt_succ_iff.mp h
    cases hc : lookupCache cache link with
    | some r => rw [validUrlGo_hit net cfg link f cache attempt method r hc]; rfl
    | none =>
      have hfall : ∀ hx : method ≠ Method.get,
          retryStepOkB cfg
            (RunOut.mk (validUrlGo net cfg link f cache attempt Method.get).result
              (validUrlGo net cfg link f cache attempt Method.get).cache
              (Event.request method attempt ::
                (validUrlGo net cfg link f cache attempt Method.get).trace)).trace = true := by
        intro hx
        have hlt : muV cfg attempt Method.get < f :=
          Nat.lt_of_lt_of_le (muV_get_lt cfg attempt method hx) hf
        obtain ⟨rest, hrest⟩ :=
          validUrlGo_trace_shape net cfg link f cache attempt Method.get hlt hc
        show retryStepOkB cfg (Event.request method attempt ::
          (validUrlGo net cfg link f cache attempt Method.get).trace) = true
        rw [hrest, retryStepOkB_req_req, ← hrest]
        exact ih cache attempt Method.get hlt
      have hcac : ∀ res : Option String,
          retryStepOkB cfg
            (RunOut.mk
              (cacheAndCallback cfg cache link attempt res
                (validUrlGo net cfg link f cache (attempt + 1) method)).result
              (cacheAndCallback cfg cache link attempt res
                (validUrlGo net cfg link f cache (attempt + 1) method)).cache
              (Event.request method attempt ::
                (cacheAndCallback cfg cache link attempt res
                  (validUrlGo net cfg link f cache (attempt + 1) method)).trace)).trace =
            true := by
        intro res
        show retryStepOkB cfg (Event.request method attempt ::
          (cacheAndCallback cfg cache link attempt res
            (validUrlGo net cfg link f cache (attempt + 1) method)).trace) = true
        unfold cacheAndCallback
        split_ifs with hcond
        · have hlt : muV cfg (attempt + 1) method < f :=
            Nat.lt_of_lt_of_le (muV_succ_lt cfg attempt method hcond.2) hf
          obtain ⟨rest, hrest⟩ :=
            validUrlGo_trace_shape net cfg link f cache (attempt + 1) method hlt hc
          show retryStepOkB cfg (Event.request method attempt ::
            Event.delay (min 1000 (100 * 2 ^ attempt)) ::
            (validUrlGo net cfg link f cache (attempt + 1) method).trace) = true
          rw [hrest, retryStepOkB_req_delay_req, ← hrest]
          have hd : decide (method = method ∧ attempt + 1 = attempt + 1 ∧
              min 1000 (100 * 2 ^ attempt) = min 1000 (100 * 2 ^ attempt)) = true := by
            simp
          rw [hd, Bool.true_and]
          exact ih cache (attempt + 1) method hlt
        · exact retryStepOkB_single cfg _
      cases hnet : net attempt method with
      | status c =>
        simp only [validUrlGo, hc, hnet]
        by_cases h405 : c = 405 ∧ method ≠ Method.get
        · rw [if_pos h405]
          exact hfall h405.2
        · rw [if_neg h405]
          by_cases hfail : 400 ≤ c ∧ c ≤ 599
          · rw [if_pos hfail]; exact hcac _
          · rw [if_neg hfail]; exact hcac _
      | transportError msg =>
        simp only [validUrlGo, hc, hnet]
        by_cases hm : method ≠ Method.get
        · rw [if_pos hm]; exact hfall hm
        · rw [if_neg hm]; exact hcac _

theorem validUrl_eq (net : Oracle) (cfg : Config) (cache : Cache) (link : String)
    (attempt : Nat) (method : Method) :
    validUrl net cfg cache link attempt method =
      validUrlGo net cfg link (2 * cfg.attempts + 3 + 1) cache attempt method := rfl

theorem validUrlGo_head405_step (net : Oracle) (cfg : Config) (link : String)
    (f : Nat) (cache : Cache) (attempt : Nat)
    (hc : lookupCache cache link = none)
    (h405 : net attempt Method.head = NetResponse.status 405) :
    validUrlGo net cfg link (f + 1) cache attempt Method.head =
      ⟨(validUrlGo net cfg link f cache attempt Method.get).result,
       (validUrlGo net cfg link f cache attempt Method.get).cache,
       Event.request Method.head attempt ::
         (validUrlGo net cfg link f cache attempt Method.get).trace⟩ := by
  simp only [validUrlGo, hc, h405]
  rw [if_pos ⟨trivial, by decide⟩]

theorem countReqAt_cons_req_self (a : Nat) (m : Method) (tr : List Event) :
    countReqAt a (Event.request m a :: tr) = countReqAt a tr + 1 := by
  simp [countReqAt, List.filter]

/-! ## C1 -/

/-- C1 (counterexample): the claim says `validMailto "mailto:a"` is
`"invalid local-part"`, but `[^@]+` of `/^mailto:[^@]+/` is satisfied by the
single character `a`, so the first regex matches and it is the second test
`/^mailto:[^@]+@[^?]+/` (requiring an `@`) that fails: the code returns
`"invalid domain"`. -/
theorem mailto_a_yields_invalid_domain :
    validMailto "mailto:a" = some "invalid domain" ∧
    validMailto "mailto:a" ≠ some "invalid local-part" := by
  constructor <;> decide

/-- C1 (amended): the mailto validator returns `null` for `mailto:a@b.com`,
`"invalid domain"` for `mailto:a`, `null` for `mailto:a@b?subject=x&cc=y`,
and `"invalid query params"` for `mailto:a@b?foo=x`. -/
theorem mailto_examples :
    validMailto "mailto:a@b.com" = none ∧
    validMailto "mailto:a" = some "invalid domain" ∧
    validMailto "mailto:a@b?subject=x&cc=y" = none ∧
    validMailto "mailto:a@b?foo=x" = some "invalid query params" := by
  refine ⟨by decide, by decide, by decide, by decide⟩

/-! ## C2 -/

/-- C2 (code bug): for a run with one broken occurrence and no asynchronous
error, the completion callback body calls `done` twice — first with the
aggregated report, then (the `done(...)` call on line 444 not being followed
by a `return`) once more with no argument — whereas the claim requires the
callback to deliver exactly one terminal outcome per run. -/
theorem completion_callback_called_twice :
    completionCalls none [⟨"a.html", "/x", some "not found"⟩] =
      [some "Broken links found:\n\na.html:\n  /x (not found)", none] ∧
    (completionCalls none [⟨"a.html", "/x", some "not found"⟩]).length = 2 := by
  constructor <;> decide

/-! ## C3 -/

/-- C3 (counterexample): `validUrlCache` lives at module level, so it
survives the end of a run. With a first run whose probes of `http://x` all
answer HTTP 404 and a second run whose network would answer 200, the second
run returns the failure cached by the first run and issues no request at all:
the cached result of run one is visible in run two and is never discarded. -/
theorem url_cache_visible_across_runs :
    (twoRuns (fun _ _ => NetResponse.status 404) (fun _ _ => NetResponse.status 200)
        ⟨3⟩ "http://x").2.result = some "HTTP 404" ∧
    (twoRuns (fun _ _ => NetResponse.status 404) (fun _ _ => NetResponse.status 200)
        ⟨3⟩ "http://x").2.trace = [] := by
  constructor <;> decide

/-! ## C4 -/

/-- C4 (counterexample): with `attempts = 1` and a network answering the
first HEAD with status 405 and every other request with a transport error,
the run's trace is HEAD(1), GET(1), delay 200 ms, GET(2): the retry scheduled
after the failed GET fallback is issued as GET again, falsifying the claim
that every scheduled retry resets the method to HEAD. -/
theorem retry_after_get_fallback_stays_get :
    (validUrl
        (fun a m => if a = 1 ∧ m = Method.head then NetResponse.status 405
          else NetResponse.transportError "boom")
        ⟨1⟩ [] "http://x" 1 Method.head).trace =
      [Event.request Method.head 1, Event.request Method.get 1,
       Event.delay 200, Event.request Method.get 2] ∧
    retriesResetToHeadB
      (validUrl
        (fun a m => if a = 1 ∧ m = Method.head then NetResponse.status 405
          else NetResponse.transportError "boom")
        ⟨1⟩ [] "http://x" 1 Method.head).trace = false := by
  constructor <;> decide

/-! ## C8 -/

/-- C8 (code bug): `linkPath in files` uses the JavaScript `in` operator on
an object built from a plain literal, and `in` also finds the inherited
`Object.prototype` properties; the root-relative link `/constructor` resolves
to `constructor`, which is not a key of the document set
`{"a/b.html", "a/index.html"}`, yet the resolver reports it valid — the claim
(and the spec) require "not found" for any resolved path that is not a key of
the document set (and whose `index.html` variant is not one either). -/
theorem local_prototype_key_leak :
    validLocal ["a/b.html", "a/index.html"] "a/b.html" "/constructor" = true ∧
    "constructor" ∉ (["a/b.html", "a/index.html"] : List String) ∧
    "constructor/index.html" ∉ (["a/b.html", "a/index.html"] : List String) := by
  refine ⟨by decide, by decide, by decide⟩

/-- C3 (amended): `validUrlCache` is module-scoped and persists across runs
of the plugin: whatever result a first run cached for a URL, a second run
validating the same URL returns that cached result with no network activity
and leaves the cache unchanged — the cache is never discarded. -/
theorem url_cache_module_persistence (net1 net2 : Oracle) (cfg : Config)
    (link : String) :
    (twoRuns net1 net2 cfg link).2.result = (twoRuns net1 net2 cfg link).1.result ∧
    (twoRuns net1 net2 cfg link).2.cache = (twoRuns net1 net2 cfg link).1.cache ∧
    (twoRuns net1 net2 cfg link).2.trace = [] := by
  have hmu : muV cfg 1 Method.head < 2 * cfg.attempts + 3 + 1 :=
    muV_lt_default cfg 1 Method.head (Nat.le_refl 1)
  have hcache :
      (validUrl net1 cfg [] link 1 Method.head).cache =
        insertCache [] link (validUrl net1 cfg [] link 1 Method.head).result := by
    rw [validUrl_eq]
    exact validUrlGo_caches net1 cfg link _ [] 1 Method.head hmu rfl
  have hhit : lookupCache (validUrl net1 cfg [] link 1 Method.head).cache link =
      some (validUrl net1 cfg [] link 1 Method.head).result := by
    rw [hcache]
    exact lookupCache_insert [] link _
  have h2 : validUrl net2 cfg (validUrl net1 cfg [] link 1 Method.head).cache link
      1 Method.head =
      ⟨(validUrl net1 cfg [] link 1 Method.head).result,
       (validUrl net1 cfg [] link 1 Method.head).cache, []⟩ := by
    rw [validUrl_eq]
    exact validUrlGo_hit net2 cfg link _ _ 1 Method.head _ hhit
  refine ⟨?_, ?_, ?_⟩ <;> simp [twoRuns, h2]

/-- C4 (amended): every retry scheduled after a terminal failure starts the
next attempt cycle with the same method the failing attempt was using (after
a HEAD→GET fallback the retries continue as GET; the method is not reset to
HEAD), incrementing the attempt by one, after a delay of
`min(1000, 100 * 2 ** attempt)` ms for the failing attempt. -/
theorem retry_preserves_method (net : Oracle) (cfg : Config) (cache : Cache)
    (link : String) (attempt : Nat) (method : Method) (h1 : 1 ≤ attempt) :
    retryStepOkB cfg (validUrl net cfg cache link attempt method).trace = true := by
  rw [validUrl_eq]
  exact validUrlGo_retry_steps net cfg link _ cache attempt method
    (muV_lt_default cfg attempt method h1)

/-- Witness for the amended C4 theorem at the concrete counterexample
scenario. -/
theorem retry_preserves_method_witness :
    retryStepOkB ⟨1⟩
      (validUrl
        (fun a m => if a = 1 ∧ m = Method.head then NetResponse.status 405
          else NetResponse.transportError "boom")
        ⟨1⟩ [] "http://x" 1 Method.head).trace = true :=
  retry_preserves_method
    (fun a m => if a = 1 ∧ m = Method.head then NetResponse.status 405
      else NetResponse.transportError "boom")
    ⟨1⟩ [] "http://x" 1 Method.head (by decide)

/-! ## C5 -/

theorem httpMsg_ne_empty (s : String) : ("HTTP " ++ s) ≠ "" := by
  intro h
  have hdata := congrArg String.data h
  rw [String.data_append] at hdata
  have hnil : "HTTP ".data = [] ∧ s.data = [] := by
    constructor
    · cases hx : "HTTP ".data with
      | nil => rfl
      | cons y ys => rw [hx] at hdata; exact absurd hdata (by simp)
    · cases hx : s.data with
      | nil => rfl
      | cons y ys =>
        rw [hx] at hdata
        exact absurd hdata (by simp)
  exact absurd hnil.1 (by decide)

theorem delaysOf_cons_req (m : Method) (a : Nat) (tr : List Event) :
    delaysOf (Event.request m a :: tr) = delaysOf tr := rfl

theorem delaysOf_cons_delay (d : Nat) (tr : List Event) :
    delaysOf (Event.delay d :: tr) = d :: delaysOf tr := rfl

theorem delays_range_step (A a : Nat) (h : a ≤ A) :
    min 1000 (100 * 2 ^ a) ::
      (List.range (A + 1 - (a + 1))).map (fun i => min 1000 (100 * 2 ^ (a + 1 + i))) =
    (List.range (A + 1 - a)).map (fun i => min 1000 (100 * 2 ^ (a + i))) := by
  have h1 : A + 1 - a = (A + 1 - (a + 1)) + 1 := by omega
  rw [h1, List.range_succ_eq_map, List.map_cons, List.map_map]
  have htail : (List.range (A + 1 - (a + 1))).map
        (fun i => min 1000 (100 * 2 ^ (a + 1 + i))) =
      (List.range (A + 1 - (a + 1))).map
        ((fun i => min 1000 (100 * 2 ^ (a + i))) ∘ Nat.succ) := by
    apply List.map_congr_left
    intro i _
    simp only [Function.comp_apply]
    have he : a + 1 + i = a + (i + 1) := by omega
    rw [he]
  rw [htail]
  simp

theorem validUrlGo_allfail (net : Oracle) (cfg : Config) (link : String)
    (hfail : ∀ a m, isHardFailure (net a m) = true) :
    ∀ fuel cache attempt method, muV cfg attempt method < fuel →
      lookupCache cache link = none →
      (∃ f0, f0 ≠ "" ∧
        (validUrlGo net cfg link fuel cache attempt method).result = some f0) ∧
      delaysOf (validUrlGo net cfg link fuel cache attempt method).trace =
        (List.range (cfg.attempts + 1 - attempt)).map
          (fun i => min 1000 (100 * 2 ^ (attempt + i))) := by
  intro fuel
  induction fuel with
  | zero => intro cache attempt method h _; exact absurd h (Nat.not_lt_zero _)
  | succ f ih =>
    intro cache attempt method h hc
    have hf : muV cfg attempt method ≤ f := Nat.lt_succ_iff.mp h
    have hcac : ∀ res : String, res ≠ "" →
        (∃ f0, f0 ≠ "" ∧
          (cacheAndCallback cfg cache link attempt (some res)
            (validUrlGo net cfg link f cache (attempt + 1) method)).result = some f0) ∧
        delaysOf (Event.request method attempt ::
          (cacheAndCallback cfg cache link attempt (some res)
            (validUrlGo net cfg link f cache (attempt + 1) method)).trace) =
          (List.range (cfg.attempts + 1 - attempt)).map
            (fun i => min 1000 (100 * 2 ^ (attempt + i))) := by
      intro res hres
      have htruthy : truthy (some res) = true := by
        simp [truthy, bne_iff_ne]
        exact hres
      unfold cacheAndCallback
      by_cases hle : attempt ≤ cfg.attempts
      · rw [if_pos ⟨htruthy, hle⟩]
        have hchild := ih cache (attempt + 1) method
          (Nat.lt_of_lt_of_le (muV_succ_lt cfg attempt method hle) hf) hc
        refine ⟨hchild.1, ?_⟩
        show delaysOf (Event.request method attempt ::
          Event.delay (min 1000 (100 * 2 ^ attempt)) ::
          (validUrlGo net cfg link f cache (attempt + 1) method).trace) = _
        rw [delaysOf_cons_req, delaysOf_cons_delay, hchild.2]
        exact delays_range_step cfg.attempts attempt hle
      · rw [if_neg (fun hcond => hle hcond.2)]
        refine ⟨⟨res, hres, rfl⟩, ?_⟩
        show delaysOf [Event.request method attempt] = _
        have h0 : cfg.attempts + 1 - attempt = 0 := by omega
        rw [delaysOf_cons_req, h0]
        rfl
    cases hnet : net attempt method with
    | status c =>
      have hfc := hfail attempt method
      rw [hnet] at hfc
      have hrange : 400 ≤ c ∧ c ≤ 599 := by
        simpa [isHardFailure] using hfc
      simp only [validUrlGo, hc, hnet]
      by_cases h405 : c = 405 ∧ method ≠ Method.get
      · rw [if_pos h405]
        have hchild := ih cache attempt Method.get
          (Nat.lt_of_lt_of_le (muV_get_lt cfg attempt method h405.2) hf) hc
        exact ⟨hchild.1, by rw [delaysOf_cons_req]; exact hchild.2⟩
      · rw [if_neg h405, if_pos hrange]
        exact hcac ("HTTP " ++ toString c) (httpMsg_ne_empty (toString c))
    | transportError msg =>
      have hfc := hfail attempt method
      rw [hnet] at hfc
      have hmsg : msg ≠ "" := by
        simpa [isHardFailure, bne_iff_ne] using hfc
      simp only [validUrlGo, hc, hnet]
      by_cases hm : method ≠ Method.get
      · rw [if_pos hm]
        have hchild := ih cache attempt Method.get
          (Nat.lt_of_lt_of_le (muV_get_lt cfg attempt method hm) hf) hc
        exact ⟨hchild.1, by rw [delaysOf_cons_req]; exact hchild.2⟩
      · rw [if_neg hm]
        exact hcac msg hmsg

theorem delays_pairwise (n a : Nat) :
    ((List.range n).map (fun i => min 1000 (100 * 2 ^ (a + i)))).Pairwise (· ≤ ·) := by
  refine (List.pairwise_lt_range n).map _ ?_
  intro i j hij
  refine min_le_min (Nat.le_refl 1000) ?_
  refine Nat.mul_le_mul_left 100 ?_
  refine Nat.pow_le_pow_right (by omega) ?_
  omega

/-- C5: when every probe of a URL fails, the validator retries `attempts`
times, the scheduled delays being exactly `min(1000, 100 * 2 ** attempt)` ms
for the failing attempts 1, 2, …, `attempts` — a non-decreasing sequence
capped at 1000 ms; after exhaustion the final failure string is cached under
the URL, and any later validation of the same URL (whatever the network then
does) returns that cached failure with no request and no cache change. -/
theorem failing_url_backoff_and_caching (net : Oracle) (cfg : Config) (link : String)
    (hfail : ∀ a m, isHardFailure (net a m) = true) :
    delaysOf (validUrl net cfg [] link 1 Method.head).trace =
      (List.range cfg.attempts).map (fun i => min 1000 (100 * 2 ^ (1 + i))) ∧
    (delaysOf (validUrl net cfg [] link 1 Method.head).trace).Pairwise (· ≤ ·) ∧
    (∀ d ∈ delaysOf (validUrl net cfg [] link 1 Method.head).trace, d ≤ 1000) ∧
    ∃ f0, f0 ≠ "" ∧ (validUrl net cfg [] link 1 Method.head).result = some f0 ∧
      lookupCache (validUrl net cfg [] link 1 Method.head).cache link =
        some (some f0) ∧
      ∀ net2, validUrl net2 cfg (validUrl net cfg [] link 1 Method.head).cache link
        1 Method.head =
        ⟨some f0, (validUrl net cfg [] link 1 Method.head).cache, []⟩ := by
  have hmu : muV cfg 1 Method.head < 2 * cfg.attempts + 3 + 1 :=
    muV_lt_default cfg 1 Method.head (Nat.le_refl 1)
  have hall := validUrlGo_allfail net cfg link hfail (2 * cfg.attempts + 3 + 1)
    [] 1 Method.head hmu rfl
  have hdelays : delaysOf (validUrl net cfg [] link 1 Method.head).trace =
      (List.range cfg.attempts).map (fun i => min 1000 (100 * 2 ^ (1 + i))) := by
    rw [validUrl_eq, hall.2]
    congr 1
  refine ⟨hdelays, ?_, ?_, ?_⟩
  · rw [hdelays]; exact delays_pairwise cfg.attempts 1
  · rw [hdelays]
    intro d hd
    rw [List.mem_map] at hd
    obtain ⟨i, _, hi⟩ := hd
    rw [← hi]
    exact min_le_left _ _
  · obtain ⟨f0, hne, hres⟩ := hall.1
    have hres' : (validUrl net cfg [] link 1 Method.head).result = some f0 := by
      rw [validUrl_eq]; exact hres
    have hcache : (validUrl net cfg [] link 1 Method.head).cache =
        insertCache [] link (some f0) := by
      rw [validUrl_eq]
      rw [validUrlGo_caches net cfg link _ [] 1 Method.head hmu rfl, hres]
    have hhit : lookupCache (validUrl net cfg [] link 1 Method.head).cache link =
        some (some f0) := by
      rw [hcache]; exact lookupCache_insert [] link _
    refine ⟨f0, hne, hres', hhit, fun net2 => ?_⟩
    rw [validUrl_eq]
    exact validUrlGo_hit net2 cfg link _ _ 1 Method.head _ hhit

/-- Witness for the C5 theorem: a network refusing every connection, three
configured attempts; the delays evaluate to 200, 400, 800 ms. -/
theorem failing_url_backoff_and_caching_witness :
    delaysOf (validUrl (fun _ _ => NetResponse.transportError "ECONNREFUSED") ⟨3⟩ []
      "http://x" 1 Method.head).trace = [200, 400, 800] := by
  have h := (failing_url_backoff_and_caching
    (fun _ _ => NetResponse.transportError "ECONNREFUSED") ⟨3⟩ "http://x"
    (fun _ _ => rfl)).1
  rw [h]
  decide

/-! ## C6 -/

/-- C6: a response with status 405 while the method is HEAD triggers exactly
one automatic GET re-issue at the same attempt count: the whole run equals
the GET run at the same attempt with one extra leading HEAD request (same
result and final cache), and exactly two requests are issued at that attempt
count — the fallback consumes no retry slot. -/
theorem head_405_single_get_fallback (net : Oracle) (cfg : Config) (cache : Cache)
    (link : String) (attempt : Nat) (h1 : 1 ≤ attempt)
    (hc : lookupCache cache link = none)
    (h405 : net attempt Method.head = NetResponse.status 405) :
    validUrl net cfg cache link attempt Method.head =
      ⟨(validUrl net cfg cache link attempt Method.get).result,
       (validUrl net cfg cache link attempt Method.get).cache,
       Event.request Method.head attempt ::
         (validUrl net cfg cache link attempt Method.get).trace⟩ ∧
    countReqAt attempt (validUrl net cfg cache link attempt Method.head).trace = 2 := by
  have hmug3 : muV cfg attempt Method.get < 2 * cfg.attempts + 3 := by
    have h := muV_lt_default cfg attempt Method.head h1
    have h2 := muV_get_lt cfg attempt Method.head (by decide)
    omega
  have hmug4 : muV cfg attempt Method.get < 2 * cfg.attempts + 3 + 1 := by omega
  have hmain : validUrl net cfg cache link attempt Method.head =
      ⟨(validUrl net cfg cache link attempt Method.get).result,
       (validUrl net cfg cache link attempt Method.get).cache,
       Event.request Method.head attempt ::
         (validUrl net cfg cache link attempt Method.get).trace⟩ := by
    rw [validUrl_eq net cfg cache link attempt Method.head,
      validUrlGo_head405_step net cfg link (2 * cfg.attempts + 3) cache attempt hc h405,
      validUrlGo_fuel_congr net cfg link (2 * cfg.attempts + 3) (2 * cfg.attempts + 3 + 1)
        cache attempt Method.get hmug3 hmug4,
      ← validUrl_eq net cfg cache link attempt Method.get]
  refine ⟨hmain, ?_⟩
  obtain ⟨rest, hrest, hall⟩ := validUrlGo_get_tail net cfg link
    (2 * cfg.attempts + 3 + 1) cache attempt hmug4 hc
  have hgtr : (validUrl net cfg cache link attempt Method.get).trace =
      Event.request Method.get attempt :: rest := by
    rw [validUrl_eq]; exact hrest
  have htr : (validUrl net cfg cache link attempt Method.head).trace =
      Event.request Method.head attempt :: Event.request Method.get attempt :: rest := by
    rw [hmain]
    show Event.request Method.head attempt ::
      (validUrl net cfg cache link attempt Method.get).trace = _
    rw [hgtr]
  rw [htr, countReqAt_cons_req_self, countReqAt_cons_req_self,
    countReqAt_zero attempt rest hall]

/-- Witness for the C6 theorem: a network answering the first HEAD with 405
and everything else with 200. -/
theorem head_405_single_get_fallback_witness :
    countReqAt 1
      (validUrl
        (fun a m => if a = 1 ∧ m = Method.head then NetResponse.status 405
          else NetResponse.status 200)
        ⟨3⟩ [] "http://x" 1 Method.head).trace = 2 :=
  (head_405_single_get_fallback
    (fun a m => if a = 1 ∧ m = Method.head then NetResponse.status 405
      else NetResponse.status 200)
    ⟨3⟩ [] "http://x" 1 (by decide) rfl (by decide)).2

/-! ## C7 -/

theorem contains_eq_true_iff (l : List Char) (c : Char) :
    l.contains c = true ↔ c ∈ l := by
  simp [List.contains, List.elem_iff]

theorem phoneSchemeRe_iff (scheme : String) (l : List Char) :
    phoneSchemeRe scheme l = true ↔
      ∃ rest, l = scheme.data ++ rest ∧ ∀ c ∈ rest, phoneChar c = true := by
  unfold phoneSchemeRe
  rw [Bool.and_eq_true, List.isPrefixOf_iff_prefix, List.all_eq_true]
  constructor
  · rintro ⟨⟨rest, hrest⟩, hall⟩
    refine ⟨rest, hrest.symm, fun c hc => hall c ?_⟩
    rw [← hrest, List.drop_left]
    exact hc
  · rintro ⟨rest, hl, hall⟩
    subst hl
    refine ⟨⟨rest, rfl⟩, fun c hc => hall c ?_⟩
    rw [List.drop_left] at hc
    exact hc

/-- C7: for every `sms:`/`tel:` link the validator strips all spaces and
requires the remainder to be the scheme name followed by characters of
`[0-9.+-]` only; when the stripped form does not fit that grammar the result
is "invalid" (even if the original contains a space); otherwise a space
anywhere in the original link gives "contains a space" even though the
stripped form is valid, and a space-free original is valid. -/
theorem sms_tel_space_handling (link : String) :
    ((¬ ∃ rest, stripSpaces link.data = "sms:".data ++ rest ∧
        ∀ c ∈ rest, phoneChar c = true) → validSms link = some "invalid") ∧
    ((∃ rest, stripSpaces link.data = "sms:".data ++ rest ∧
        ∀ c ∈ rest, phoneChar c = true) →
      (' ' ∈ link.data → validSms link = some "contains a space") ∧
      (' ' ∉ link.data → validSms link = none)) ∧
    ((¬ ∃ rest, stripSpaces link.data = "tel:".data ++ rest ∧
        ∀ c ∈ rest, phoneChar c = true) → validTel link = some "invalid") ∧
    ((∃ rest, stripSpaces link.data = "tel:".data ++ rest ∧
        ∀ c ∈ rest, phoneChar c = true) →
      (' ' ∈ link.data → validTel link = some "contains a space") ∧
      (' ' ∉ link.data → validTel link = none)) := by
  refine ⟨?_, ?_, ?_, ?_⟩
  · intro hno
    have hfalse : phoneSchemeRe "sms:" (stripSpaces link.data) = false := by
      rw [Bool.eq_false_iff, Ne, phoneSchemeRe_iff]
      exact hno
    unfold validSms
    rw [hfalse]
    rfl
  · intro hex
    have htrue : phoneSchemeRe "sms:" (stripSpaces link.data) = true :=
      (phoneSchemeRe_iff _ _).mpr hex
    constructor
    · intro hsp
      have hcont : link.data.contains ' ' = true := (contains_eq_true_iff _ _).mpr hsp
      unfold validSms
      rw [htrue, hcont]
      rfl
    · intro hsp
      have hcont : link.data.contains ' ' = false := by
        rw [Bool.eq_false_iff, Ne, contains_eq_true_iff]
        exact hsp
      unfold validSms
      rw [htrue, hcont]
      rfl
  · intro hno
    have hfalse : phoneSchemeRe "tel:" (stripSpaces link.data) = false := by
      rw [Bool.eq_false_iff, Ne, phoneSchemeRe_iff]
      exact hno
    unfold validTel
    rw [hfalse]
    rfl
  · intro hex
    have htrue : phoneSchemeRe "tel:" (stripSpaces link.data) = true :=
      (phoneSchemeRe_iff _ _).mpr hex
    constructor
    · intro hsp
      have hcont : link.data.contains ' ' = true := (contains_eq_true_iff _ _).mpr hsp
      unfold validTel
      rw [htrue, hcont]
      rfl
    · intro hsp
      have hcont : link.data.contains ' ' = false := by
        rw [Bool.eq_false_iff, Ne, contains_eq_true_iff]
        exact hsp
      unfold validTel
      rw [htrue, hcont]
      rfl

/-- Witness for the C7 theorem at the claim's example `tel:+1 234`, whose
stripped form fits the grammar while the original contains a space. -/
theorem sms_tel_space_handling_witness :
    validTel "tel:+1 234" = some "contains a space" :=
  ((sms_tel_space_handling "tel:+1 234").2.2.2
    ⟨"+1234".data, by decide, by decide⟩).1 (by decide)

/-! ## C10 -/

theorem splitAtFirst_not_mem (c : Char) (xs : List Char) (h : c ∉ xs) :
    splitAtFirst c xs = none := by
  induction xs with
  | nil => rfl
  | cons x rest ih =>
    rw [List.mem_cons, not_or] at h
    simp only [splitAtFirst]
    rw [if_neg (fun hx => h.1 hx.symm), ih h.2]

theorem splitAtFirst_append (c : Char) (xs ys : List Char) (h : c ∉ xs) :
    splitAtFirst c (xs ++ c :: ys) = some (xs, ys) := by
  induction xs with
  | nil => simp [splitAtFirst]
  | cons x rest ih =>
    rw [List.mem_cons, not_or] at h
    simp only [List.cons_append, splitAtFirst, List.append_eq]
    rw [if_neg (fun hx => h.1 hx.symm), ih h.2]

theorem isPrefixOf_append_self (xs ys : List Char) :
    xs.isPrefixOf (xs ++ ys) = true := by
  rw [ List.isPrefixOf_iff_prefix]
  exact ⟨ys, rfl⟩

theorem mailtoQueryPairRe_of (k : String) (v : List Char) (hk : k ∈ mailtoQueryKeys)
    (hv : v ≠ []) (hva : '&' ∉ v) :
    mailtoQueryPairRe (k.data ++ '=' :: v) = true := by
  unfold mailtoQueryPairRe
  rw [List.any_eq_true]
  refine ⟨k, hk, ?_⟩
  have hassoc : k.data ++ '=' :: v = (k.data ++ ['=']) ++ v := by simp
  have hpre : (k.data ++ ['=']).isPrefixOf (k.data ++ '=' :: v) = true := by
    rw [hassoc]
    exact isPrefixOf_append_self _ _
  have hlen : (k.data ++ ['=']).length = k.data.length + 1 := by simp
  have hdrop : (k.data ++ '=' :: v).drop (k.data.length + 1) = v := by
    rw [hassoc, ← hlen, List.drop_left]
  have hie : v.isEmpty = false := by
    cases v with
    | nil => exact absurd rfl hv
    | cons a b => rfl
  have hcont : v.contains '&' = false := by
    rw [Bool.eq_false_iff, Ne, contains_eq_true_iff]
    exact hva
  rw [hpre, hdrop, hie, hcont]
  rfl

/-- C10: the mailto query grammar does not require the two query keys to be
distinct: for every non-empty local part `L` without `@`, non-empty domain
`D` without `?`, accepted key `k`, and non-empty `&`-free values `v1`, `v2`,
the link `mailto:L@D?k=v1&k=v2` — the same key twice — is valid. -/
theorem mailto_duplicate_query_keys (L D v1 v2 : List Char) (k : String)
    (hk : k ∈ mailtoQueryKeys) (hL : L ≠ []) (hLa : '@' ∉ L)
    (hD : D ≠ []) (hDq : '?' ∉ D) (hv1 : v1 ≠ []) (hv1a : '&' ∉ v1)
    (hv2 : v2 ≠ []) (hv2a : '&' ∉ v2) :
    validMailto (String.mk ("mailto:".data ++ (L ++ '@' :: (D ++ '?' ::
      ((k.data ++ '=' :: v1) ++ '&' :: (k.data ++ '=' :: v2)))))) = none := by
  have hkamp : '&' ∉ k.data ∧ '?' ∉ k.data := by
    have hx := hk
    simp only [mailtoQueryKeys, List.mem_cons, List.not_mem_nil, or_false] at hx
    rcases hx with rfl | rfl | rfl | rfl <;> exact ⟨by decide, by decide⟩
  have hampP1 : '&' ∉ k.data ++ '=' :: v1 := by
    rw [List.mem_append, List.mem_cons]
    rintro (hin | heq | hin)
    · exact hkamp.1 hin
    · exact absurd heq (by decide)
    · exact hv1a hin
  have hquery : mailtoQueryRe ((k.data ++ '=' :: v1) ++ '&' :: (k.data ++ '=' :: v2)) =
      true := by
    unfold mailtoQueryRe
    rw [splitAtFirst_append '&' _ _ hampP1]
    show (mailtoQueryPairRe (k.data ++ '=' :: v1) &&
      mailtoQueryPairRe (k.data ++ '=' :: v2)) = true
    rw [mailtoQueryPairRe_of k v1 hk hv1 hv1a, mailtoQueryPairRe_of k v2 hk hv2 hv2a]
    rfl
  have h7 : ("mailto:".data).length = 7 := rfl
  have hdrop : ("mailto:".data ++ (L ++ '@' :: (D ++ '?' ::
      ((k.data ++ '=' :: v1) ++ '&' :: (k.data ++ '=' :: v2))))).drop 7 =
      L ++ '@' :: (D ++ '?' :: ((k.data ++ '=' :: v1) ++ '&' :: (k.data ++ '=' :: v2))) := by
    rw [← h7, List.drop_left]
  have hpre : ("mailto:".data).isPrefixOf ("mailto:".data ++ (L ++ '@' :: (D ++ '?' ::
      ((k.data ++ '=' :: v1) ++ '&' :: (k.data ++ '=' :: v2))))) = true :=
    isPrefixOf_append_self _ _
  have hsplitA : splitAtFirst '@' (L ++ '@' :: (D ++ '?' ::
      ((k.data ++ '=' :: v1) ++ '&' :: (k.data ++ '=' :: v2)))) =
      some (L, D ++ '?' :: ((k.data ++ '=' :: v1) ++ '&' :: (k.data ++ '=' :: v2))) :=
    splitAtFirst_append '@' _ _ hLa
  have hsplitQ : splitAtFirst '?' (D ++ '?' ::
      ((k.data ++ '=' :: v1) ++ '&' :: (k.data ++ '=' :: v2))) =
      some (D, (k.data ++ '=' :: v1) ++ '&' :: (k.data ++ '=' :: v2)) :=
    splitAtFirst_append '?' _ _ hDq
  have hLie : L.isEmpty = false := by
    cases L with
    | nil => exact absurd rfl hL
    | cons a b => rfl
  have hDie : D.isEmpty = false := by
    cases D with
    | nil => exact absurd rfl hD
    | cons a b => rfl
  have hR1 : mailtoLocalPartRe ("mailto:".data ++ (L ++ '@' :: (D ++ '?' ::
      ((k.data ++ '=' :: v1) ++ '&' :: (k.data ++ '=' :: v2))))) = true := by
    unfold mailtoLocalPartRe
    rw [hpre, hdrop, Bool.true_and]
    cases L with
    | nil => exact absurd rfl hL
    | cons c0 L' =>
      rw [List.cons_append]
      show (c0 != '@') = true
      rw [bne_iff_ne]
      intro hEq
      exact hLa (by rw [hEq]; exact List.mem_cons_self _ _)
  have hR2 : mailtoDomainRe ("mailto:".data ++ (L ++ '@' :: (D ++ '?' ::
      ((k.data ++ '=' :: v1) ++ '&' :: (k.data ++ '=' :: v2))))) = true := by
    unfold mailtoDomainRe
    rw [hpre, hdrop, Bool.true_and, hsplitA]
    cases D with
    | nil => exact absurd rfl hD
    | cons d D' =>
      show (!L.isEmpty && (d != '?')) = true
      rw [hLie]
      show (d != '?') = true
      rw [bne_iff_ne]
      intro hEq
      exact hDq (by rw [hEq]; exact List.mem_cons_self _ _)
  have hR3 : mailtoFullRe ("mailto:".data ++ (L ++ '@' :: (D ++ '?' ::
      ((k.data ++ '=' :: v1) ++ '&' :: (k.data ++ '=' :: v2))))) = true := by
    unfold mailtoFullRe
    rw [hpre, hdrop, Bool.true_and, hsplitA]
    show (!L.isEmpty &&
      match splitAtFirst '?' (D ++ '?' ::
        ((k.data ++ '=' :: v1) ++ '&' :: (k.data ++ '=' :: v2))) with
      | none => !(D ++ '?' ::
          ((k.data ++ '=' :: v1) ++ '&' :: (k.data ++ '=' :: v2))).isEmpty
      | some (dom, q) => !dom.isEmpty && mailtoQueryRe q) = true
    rw [hsplitQ]
    show (!L.isEmpty && (!D.isEmpty &&
      mailtoQueryRe ((k.data ++ '=' :: v1) ++ '&' :: (k.data ++ '=' :: v2)))) = true
    rw [hLie, hDie, hquery]
    rfl
  have hdata : (String.mk ("mailto:".data ++ (L ++ '@' :: (D ++ '?' ::
      ((k.data ++ '=' :: v1) ++ '&' :: (k.data ++ '=' :: v2)))))).data =
      "mailto:".data ++ (L ++ '@' :: (D ++ '?' ::
      ((k.data ++ '=' :: v1) ++ '&' :: (k.data ++ '=' :: v2)))) := rfl
  unfold validMailto
  rw [hdata, hR1, hR2, hR3]
  rfl

/-- Witness for the C10 theorem: `mailto:a@b?cc=x&cc=y` is accepted. -/
theorem mailto_duplicate_query_keys_witness :
    validMailto (String.mk ("mailto:".data ++ (['a'] ++ '@' :: (['b'] ++ '?' ::
      (("cc".data ++ '=' :: ['x']) ++ '&' :: ("cc".data ++ '=' :: ['y'])))))) = none :=
  mailto_duplicate_query_keys ['a'] ['b'] ['x'] ['y'] "cc" (by decide) (by decide)
    (by decide) (by decide) (by decide) (by decide) (by decide) (by decide) (by decide)

/-! ## C9 -/

theorem upsert_keys (m : List (String × List String)) (k v : String) :
    (upsert m k v).map Prod.fst =
      if m.any (fun e => e.1 == k) then m.map Prod.fst
      else m.map Prod.fst ++ [k] := by
  unfold upsert
  split_ifs with hany
  · rw [List.map_map]
    apply List.map_congr_left
    intro e _
    simp only [Function.comp_apply]
    split_ifs with he <;> rfl
  · rw [List.map_append]
    rfl

theorem upsert_keys_mem (m : List (String × List String)) (k v : String)
    (k' : String) :
    k' ∈ (upsert m k v).map Prod.fst ↔ k' ∈ m.map Prod.fst ∨ k' = k := by
  rw [upsert_keys]
  split_ifs with hany
  · constructor
    · exact Or.inl
    · rintro (h | rfl)
      · exact h
      · rw [List.any_eq_true] at hany
        obtain ⟨e, hem, hek⟩ := hany
        rw [beq_iff_eq] at hek
        rw [List.mem_map]
        exact ⟨e, hem, hek⟩
  · simp [List.mem_append]

theorem keys_nodup_upsert (m : List (String × List String)) (k v : String)
    (h : (m.map Prod.fst).Nodup) : ((upsert m k v).map Prod.fst).Nodup := by
  rw [upsert_keys]
  split_ifs with hany
  · exact h
  · have hk : k ∉ m.map Prod.fst := by
      intro hmem
      apply hany
      rw [List.any_eq_true]
      rw [List.mem_map] at hmem
      obtain ⟨e, hem, hek⟩ := hmem
      exact ⟨e, hem, by rw [beq_iff_eq]; exact hek⟩
    rw [List.nodup_append]
    exact ⟨h, List.nodup_singleton k, fun a ha hk' => by
      rw [List.mem_singleton] at hk'
      exact hk (hk' ▸ ha)⟩

theorem foldl_upsert_keys_mem (l : List Occurrence) :
    ∀ (m : List (String × List String)) (k' : String),
      (k' ∈ ((l.foldl (fun m o => upsert m o.filename (linkError o)) m).map Prod.fst)) ↔
        k' ∈ m.map Prod.fst ∨ ∃ o ∈ l, o.filename = k' := by
  induction l with
  | nil => intro m k'; simp
  | cons o rest ih =>
    intro m k'
    rw [List.foldl_cons, ih, upsert_keys_mem]
    constructor
    · rintro ((h | rfl) | h)
      · exact Or.inl h
      · exact Or.inr ⟨o, List.mem_cons_self _ _, rfl⟩
      · obtain ⟨o', ho', rfl⟩ := h
        exact Or.inr ⟨o', List.mem_cons_of_mem o ho', rfl⟩
    · rintro (h | ⟨o', ho', rfl⟩)
      · exact Or.inl (Or.inl h)
      · rcases List.mem_cons.mp ho' with rfl | h'
        · exact Or.inl (Or.inr rfl)
        · exact Or.inr ⟨o', h', rfl⟩

theorem foldl_upsert_keys_nodup (l : List Occurrence) :
    ∀ m : List (String × List String), (m.map Prod.fst).Nodup →
      ((l.foldl (fun m o => upsert m o.filename (linkError o)) m).map Prod.fst).Nodup := by
  induction l with
  | nil => intro m h; exact h
  | cons o rest ih =>
    intro m h
    rw [List.foldl_cons]
    exact ih _ (keys_nodup_upsert m o.filename (linkError o) h)

theorem filenamesToLinkErrors_keys_mem (results : List Occurrence) (k' : String) :
    k' ∈ (filenamesToLinkErrors results).map Prod.fst ↔
      ∃ o ∈ results, isBroken o = true ∧ o.filename = k' := by
  unfold filenamesToLinkErrors
  rw [foldl_upsert_keys_mem]
  constructor
  · rintro (h | ⟨o, ho, rfl⟩)
    · simp at h
    · rw [List.mem_filter] at ho
      exact ⟨o, ho.1, ho.2, rfl⟩
  · rintro ⟨o, ho, hb, rfl⟩
    exact Or.inr ⟨o, List.mem_filter.mpr ⟨ho, hb⟩, rfl⟩

theorem filenamesToLinkErrors_keys_nodup (results : List Occurrence) :
    ((filenamesToLinkErrors results).map Prod.fst).Nodup := by
  unfold filenamesToLinkErrors
  exact foldl_upsert_keys_nodup _ [] (by simp)

theorem filenamesToLinkErrors_ne_nil (results : List Occurrence)
    (h : ∃ o ∈ results, isBroken o = true) :
    (filenamesToLinkErrors results).isEmpty = false := by
  obtain ⟨o, ho, hb⟩ := h
  have hmem : o.filename ∈ (filenamesToLinkErrors results).map Prod.fst :=
    (filenamesToLinkErrors_keys_mem _ _).mpr ⟨o, ho, hb, rfl⟩
  cases hm : filenamesToLinkErrors results with
  | nil => rw [hm] at hmem; simp at hmem
  | cons a l => rfl

/-- C9: with at least one broken occurrence, the aggregated report is
`"Broken links found:\n\n"` followed by one block per offending document —
the offending documents being exactly the filenames of broken occurrences,
each appearing once — sorted by the string order of `Array.prototype.sort`,
each block listing that document's indented `link (reason)` lines sorted by
the same order, blocks separated by a blank line. -/
theorem broken_links_report_format (results : List Occurrence)
    (h : ∃ o ∈ results, isBroken o = true) :
    buildReport results =
      some ("Broken links found:\n\n" ++ String.intercalate "\n\n"
        ((jsSort ((filenamesToLinkErrors results).map Prod.fst)).map fun filename =>
          filename ++ ":\n" ++ String.intercalate "\n"
            ((jsSort (((filenamesToLinkErrors results).lookup filename).getD [])).map
              fun e => "  " ++ e))) ∧
    (jsSort ((filenamesToLinkErrors results).map Prod.fst)).Sorted jsR ∧
    (jsSort ((filenamesToLinkErrors results).map Prod.fst)).Nodup ∧
    (∀ f0, f0 ∈ jsSort ((filenamesToLinkErrors results).map Prod.fst) ↔
      ∃ o ∈ results, isBroken o = true ∧ o.filename = f0) ∧
    (∀ l : List String, (jsSort l).Sorted jsR) := by
  refine ⟨?_, jsSort_sorted _, ?_, ?_, fun l => jsSort_sorted l⟩
  · have hnil := filenamesToLinkErrors_ne_nil results h
    show (if (filenamesToLinkErrors results).isEmpty = true then none
      else some ("Broken links found:\n\n" ++ buildMessage (filenamesToLinkErrors results))) = _
    rw [hnil, if_neg Bool.false_ne_true]
    rfl
  · exact (jsSort_perm _).symm.nodup (filenamesToLinkErrors_keys_nodup results)
  · intro f0
    rw [(jsSort_perm _).mem_iff, filenamesToLinkErrors_keys_mem]

/-- Witness for the C9 theorem with two broken occurrences in two documents
listed out of order; the report sorts them. -/
theorem broken_links_report_format_witness :
    buildReport [⟨"b.html", "x", some "not found"⟩, ⟨"a.html", "y", some "HTTP 404"⟩] =
      some "Broken links found:\n\na.html:\n  y (HTTP 404)\n\nb.html:\n  x (not found)" := by
  have h := (broken_links_report_format
    [⟨"b.html", "x", some "not found"⟩, ⟨"a.html", "y", some "HTTP 404"⟩]
    ⟨⟨"b.html", "x", some "not found"⟩, by decide, by decide⟩).1
  rw [h]
  decide

end LinkChecker
